import Mathlib

/-!
Verification of the GoPing scan engine (`main.go`).

IPv4 addresses are modelled as natural numbers below `2 ^ 32`; the byte-array
operations of the Go code (`ip.Mask`, `inc`, `ipNet.Contains`) become the
corresponding bitwise/arithmetic operations on that representation, with the
wrap-around of 32-bit arithmetic made explicit as `% 2 ^ 32`.  The two scan
loops of the source (`parseCIDR`'s expansion loop and `splitIntoSubnets`'s
chunking loop) are embedded with an explicit fuel parameter: a result `none`
means the loop did not exit within `fuel` iterations, and a result that is
`none` for every fuel is a loop that never exits.
-/

namespace GoPing

/-- `net.CIDRMask(p, 32)` as a 32-bit value: `p` one bits followed by
`32 - p` zero bits. -/
def maskOf (p : Nat) : Nat := 2 ^ 32 - 2 ^ (32 - p)

/-- `ipNet.Contains(x)`: the address AND the mask, compared with the
(pre-masked) base address of the network, byte for byte in the source,
which on the 32-bit value is exactly `x &&& mask == network`. -/
def ipContains (network mask x : Nat) : Bool := x &&& mask == network

/-- `inc(ip)` from the source: byte-array increment with carry, i.e. `+ 1`
modulo `2 ^ 32` on the 32-bit value. -/
def incIP (x : Nat) : Nat := (x + 1) % 2 ^ 32

/-- `ip.String()` for a 4-byte IP: dotted decimal rendering of the four
bytes of the 32-bit value. -/
def ipString (x : Nat) : String :=
  Nat.repr (x / 2 ^ 24 % 256) ++ "." ++ Nat.repr (x / 2 ^ 16 % 256) ++ "." ++
    Nat.repr (x / 2 ^ 8 % 256) ++ "." ++ Nat.repr (x % 256)

/-- The `for ip := ip.Mask(ipNet.Mask); ipNet.Contains(ip); inc(ip)` loop of
`parseCIDR`: collect the current address while it is contained in the block,
then increment (with 32-bit wrap-around).  `none` = the loop did not exit
within `fuel` iterations. -/
def expandLoop : Nat → Nat → Nat → Nat → Option (List Nat)
  | 0, _, _, _ => none
  | fuel + 1, network, mask, x =>
    if ipContains network mask x then
      (expandLoop fuel network mask (incIP x)).map (fun l => x :: l)
    else
      some []

/-- The error cases of `parseCIDR` that are reachable for a syntactically
valid IPv4 input `(base, p)`: only `"network too small for scanning"`. -/
inductive CIDRErr where
  | rangeTooSmall
deriving DecidableEq

/-- The network (first) address of the block `base/p`, as the source
computes it: `ip.Mask(ipNet.Mask)`. -/
def network (base p : Nat) : Nat := base &&& maskOf p

/-- The broadcast (last) address of the block `base/p`. -/
def broadcast (base p : Nat) : Nat := network base p + (2 ^ (32 - p) - 1)

/-- `parseCIDR` from the source, for an already-parsed IPv4 input
`base/p` (the `net.ParseCIDR` syntax check and the IPv6 rejection are the
surrounding guards; the model's domain `base < 2 ^ 32` is IPv4): expand all
addresses of the block in loop order starting from the masked base address
(`ip.Mask(ipNet.Mask)`, i.e. `network base p`), fail with the "network too
small for scanning" error when fewer than 2 were collected, otherwise drop
the first (network) and last (broadcast) entries.  The source appends
`ip.String()` inside the loop and slices the string list; mapping
`ipString` after slicing is the same list. -/
def parseCIDR (fuel base p : Nat) : Option (Except CIDRErr (List String)) :=
  match expandLoop fuel (network base p) (maskOf p) (network base p) with
  | none => none
  | some addrs =>
    some (if addrs.length < 2 then Except.error CIDRErr.rangeTooSmall
          else Except.ok (((addrs.drop 1).dropLast).map ipString))

/-- The chunking loop of `splitIntoSubnets`: emit the current /24 base,
step forward by 256 with 32-bit wrap-around (`ipInt += step` on `uint32`),
and exit once the stepped address leaves the original block.  `none` = the
loop did not exit within `fuel` iterations. -/
def subnetsLoop : Nat → Nat → Nat → Nat → Option (List Nat)
  | 0, _, _, _ => none
  | fuel + 1, network, mask, cur =>
    if ipContains network mask ((cur + 256) % 2 ^ 32) then
      (subnetsLoop fuel network mask ((cur + 256) % 2 ^ 32)).map (fun l => cur :: l)
    else
      some [cur]

/-- `splitIntoSubnets` from the source, for an already-parsed IPv4 input
`base/p`: blocks that are already /24 or smaller are returned unchanged
(one pair, with the original unmasked base, as `subnet.String()` of the
input); larger blocks are chunked into /24s starting from the masked base.
Each emitted chunk is the pair (chunk base, 24). -/
def splitIntoSubnets (fuel base p : Nat) : Option (List (Nat × Nat)) :=
  if 24 ≤ p then some [(base, p)]
  else
    (subnetsLoop fuel (network base p) (maskOf p) (network base p)).map
      (fun l => l.map (fun c => (c, 24)))

/-- The set of addresses a chunk `(base, p)` stands for, as an ascending
list. -/
def chunkAddrs (c : Nat × Nat) : List Nat :=
  (List.range (2 ^ (32 - c.2))).map (fun i => c.1 + i)

/-- The `PingResult` struct of the source. -/
structure PingResult where
  IP : String
  Alive : Bool
deriving DecidableEq

/-- The behaviour of the external ping library for one probe, as `pingIP`
observes it: whether `ping.NewPinger` fails, whether `pinger.Run()` fails
(covers transport errors; a plain timeout makes `Run` succeed with zero
replies), and the `PacketsRecv` statistic. -/
structure ProbeEnv where
  newPingerErr : Bool
  runErr : Bool
  packetsRecv : Nat

/-- `pingIP` from the source: every failure path returns
`PingResult{IP: ip, Alive: false}`; on success the address is alive iff at
least one reply packet was received.  The Go function's return type carries
no error value at all. -/
def pingIP (ip : String) (env : ProbeEnv) : PingResult :=
  if env.newPingerErr then ⟨ip, false⟩
  else if env.runErr then ⟨ip, false⟩
  else ⟨ip, decide (0 < env.packetsRecv)⟩

/-- `processCIDR` from the source, restricted to the data it produces: on a
`parseCIDR` error it reports and returns with no outcomes; on an empty
usable range it warns and returns with no outcomes; otherwise every usable
address is probed and yields exactly one outcome.  The outcome multiset is
modelled in input order (`pingAllWithConcurrency` collects it in a
scheduler-dependent order); `alive` abstracts the per-address probe verdict.
`none` = `parseCIDR`'s loop did not exit within `fuel`. -/
def processCIDR (fuel : Nat) (alive : String → Bool) (base p : Nat) :
    Option (List PingResult) :=
  match parseCIDR fuel base p with
  | none => none
  | some (Except.error _) => some []
  | some (Except.ok ips) => some (ips.map (fun s => ⟨s, alive s⟩))

/-- The main loop over the parsed CIDR list: each block is processed
independently of the fate of the others. -/
def runAll (fuel : Nat) (alive : String → Bool) (cidrs : List (Nat × Nat)) :
    List (Option (List PingResult)) :=
  cidrs.map (fun c => processCIDR fuel alive c.1 c.2)

/-! ### Dispatcher (`pingAllWithConcurrency`)

One lightweight task per address.  Each task runs, in program order:
acquire a semaphore slot (`semaphore <- struct{}{}`, blocking while the
buffered channel is full, i.e. while `sem = maxThreads`), run the probe,
send the result on the `results` channel (buffered to `len(ips)`, so the
send never blocks), release the slot (`<-semaphore`), and send one progress
signal (`progress <- 1`, buffered to the total, so it never blocks).  The
interleaving of tasks is an arbitrary schedule: a list of task indices, each
entry letting that task execute its next atomic step (a step by a task
blocked on the full semaphore, an out-of-range index, or a step by a
finished task changes nothing). -/

/-- Program counter of one dispatcher task: the next instruction it will
execute. -/
inductive TaskPC where
  | acquire
  | probe
  | send
  | release
  | signal
  | done
deriving DecidableEq

/-- `true` while the task holds a semaphore slot (from the acquire step to
the release step). -/
def SlotHeld : TaskPC → Bool
  | .probe | .send | .release => true
  | _ => false

/-- `true` once the task has sent its result on the results channel. -/
def PastSend : TaskPC → Bool
  | .release | .signal | .done => true
  | _ => false

/-- `true` once the task has finished (sent its progress signal). -/
def IsDone : TaskPC → Bool
  | .done => true
  | _ => false

/-- The task currently holds a semaphore slot. -/
def slotHolder (t : TaskPC × String) : Bool := SlotHeld t.1

/-- The task has finished. -/
def doneTask (t : TaskPC × String) : Bool := IsDone t.1

/-- State of one in-flight chunk scan: per-task program counters paired with
the task's address, the number of held semaphore slots, the contents of the
results channel in send order, and the number of progress signals sent. -/
structure DispState where
  tasks : List (TaskPC × String)
  sem : Nat
  results : List PingResult
  progress : Nat
deriving DecidableEq

/-- One atomic step of task `i`, following the body of the goroutine in
`pingAllWithConcurrency`.  `alive` abstracts the probe verdict
(`pingIP(ip).Alive`); the probe step builds exactly the `PingResult` that
`pingIP` returns. -/
def step (maxT : Nat) (alive : String → Bool) (s : DispState) (i : Nat) :
    DispState :=
  match s.tasks[i]? with
  | none => s
  | some (pc, ip) =>
    match pc with
    | .acquire =>
      if s.sem < maxT then
        { s with tasks := s.tasks.set i (.probe, ip), sem := s.sem + 1 }
      else s
    | .probe => { s with tasks := s.tasks.set i (.send, ip) }
    | .send =>
      { s with tasks := s.tasks.set i (.release, ip),
               results := s.results ++ [⟨ip, alive ip⟩] }
    | .release => { s with tasks := s.tasks.set i (.signal, ip), sem := s.sem - 1 }
    | .signal => { s with tasks := s.tasks.set i (.done, ip), progress := s.progress + 1 }
    | .done => s

/-- Run the dispatcher under a schedule (a list of task indices). -/
def run (maxT : Nat) (alive : String → Bool) (s : DispState) (sched : List Nat) :
    DispState :=
  sched.foldl (step maxT alive) s

/-- The dispatcher's start state: one task per input address, all about to
acquire, no slot held, empty results channel, no progress signals. -/
def initState (ips : List String) : DispState :=
  ⟨ips.map (fun ip => (TaskPC.acquire, ip)), 0, [], 0⟩

/-- All tasks have finished; `pingAllWithConcurrency` returns (the
`wg.Wait` goroutine closes `results` and the collection loop ends) exactly
when this holds. -/
abbrev AllDone (s : DispState) : Prop := ∀ t ∈ s.tasks, t.1 = TaskPC.done

/-- The results the tasks past their send step have put on the results
channel, in task order. -/
def emitted (alive : String → Bool) (tasks : List (TaskPC × String)) :
    List PingResult :=
  tasks.filterMap (fun t => if PastSend t.1 then some ⟨t.2, alive t.2⟩ else none)

/-- Number of atomic steps a task at this program counter still has to
execute. -/
def remSteps : TaskPC → Nat
  | .acquire => 5
  | .probe => 4
  | .send => 3
  | .release => 2
  | .signal => 1
  | .done => 0

/-- Number of atomic steps one task still has to execute. -/
def taskSteps (t : TaskPC × String) : Nat := remSteps t.1

/-- Total remaining work of a dispatcher state. -/
def stepsLeft (s : DispState) : Nat :=
  (s.tasks.map taskSteps).sum

/-- The inductive invariant of the dispatcher: the addresses never change,
the semaphore counts exactly the slot-holding tasks and never exceeds the
ceiling, the results channel holds one result per task past its send step
(as a multiset), and the progress count equals the number of finished
tasks. -/
structure Inv (maxT : Nat) (alive : String → Bool) (ips : List String)
    (s : DispState) : Prop where
  ipsEq : s.tasks.map Prod.snd = ips
  semEq : s.sem = s.tasks.countP slotHolder
  semLe : s.sem ≤ maxT
  resPerm : s.results.Perm (emitted alive s.tasks)
  progEq : s.progress = s.tasks.countP doneTask

/-! ### Result reporter (`printResults` / `saveSortedResultsToLog`) -/

/-- `strings.Split(s, ".")`: split a character list at every dot.  Never
returns an empty list. -/
def splitOnDot : List Char → List (List Char)
  | [] => [[]]
  | c :: rest =>
    match splitOnDot rest with
    | [] => [[c]]
    | h :: t => if c = '.' then [] :: h :: t else (c :: h) :: t

/-- `getLastOctet` from the source: the part after the last dot (the guard
for an empty split result is dead code, `strings.Split` never returns an
empty slice). -/
def getLastOctet (ip : String) : String :=
  match splitOnDot ip.data with
  | [] => ip
  | parts => String.mk (parts.getLastD ip.data)

/-- `strconv.Atoi` as the sort comparator uses it: the numeric value of a
non-empty all-digit string, and the zero value it returns alongside an
error for anything else (the source ignores the error). -/
def atoiOr0 (s : String) : Nat :=
  if s.data ≠ [] ∧ s.data.all Char.isDigit then
    s.data.foldl (fun acc c => acc * 10 + (c.toNat - 48)) 0
  else 0

/-- The ordering key of the reporter's sort: numeric value of the last
dotted-decimal octet. -/
def sortKey (r : PingResult) : Nat := atoiOr0 (getLastOctet r.IP)

/-- The contract of `sort.Slice(results, less)` with
`less i j := sortKey results[i] < sortKey results[j]`: the output is some
permutation of the input that is pairwise non-decreasing in the key.
`sort.Slice` promises nothing more — its documentation states the sort is
not guaranteed to be stable. -/
def SortSliceSpec (input output : List PingResult) : Prop :=
  output.Perm input ∧ output.Pairwise (fun a b => sortKey a ≤ sortKey b)

/-! ### Progress monitor (`showProgress`) -/

/-- The events `showProgress` can observe: one progress signal
(`<-progress` with `ok`), the progress channel closing (`ok == false`), or
the explicit finished signal (`<-done`). -/
inductive ProgEvent where
  | tick
  | closed
  | finished

/-- The divisors used by `showProgress`'s ETA estimate, in order: the local
`count` starts at `count0` (0 in the source), each progress signal first
increments it and then computes
`remaining := elapsed / count * (total - count)`; the loop returns on
`closed` or `finished` without dividing. -/
def showProgressDivs : Nat → List ProgEvent → List Nat
  | _, [] => []
  | count, ProgEvent.tick :: rest => (count + 1) :: showProgressDivs (count + 1) rest
  | _, ProgEvent.closed :: _ => []
  | _, ProgEvent.finished :: _ => []

/-- The number of progress signals the monitor consumes before it stops. -/
def ticksTaken : List ProgEvent → Nat
  | ProgEvent.tick :: rest => ticksTaken rest + 1
  | _ => 0

/-! ### Masking arithmetic -/

theorem land_highMask (s x : Nat) (hs : s ≤ 32) (hx : x < 2 ^ 32) :
    x &&& (2 ^ 32 - 2 ^ s) = x / 2 ^ s * 2 ^ s := by
  have h1 : 2 ^ s * 2 ^ (32 - s) = 2 ^ 32 := by
    rw [← pow_add]
    congr 1
    omega
  have hmask : 2 ^ 32 - 2 ^ s = 2 ^ s * (2 ^ (32 - s) - 1) := by
    have h2 : 2 ^ s * ((2 ^ (32 - s)).pred) = 2 ^ s * 2 ^ (32 - s) - 2 ^ s :=
      Nat.mul_pred _ _
    rw [h1] at h2
    rw [← h2]
    rfl
  have hdiv : x / 2 ^ s * 2 ^ s = 2 ^ s * (x >>> s) := by
    rw [Nat.shiftRight_eq_div_pow]
    ring
  apply Nat.eq_of_testBit_eq
  intro j
  rw [hmask, Nat.testBit_and, Nat.testBit_mul_pow_two, Nat.testBit_two_pow_sub_one,
    hdiv, Nat.testBit_mul_pow_two, Nat.testBit_shiftRight]
  rcases Nat.lt_or_ge j s with hj | hj
  · have : ¬ (j ≥ s) := by omega
    simp [this]
  · have hge : (decide (j ≥ s)) = true := by simp [hj]
    have hj' : s + (j - s) = j := by omega
    rw [hge, hj']
    rcases Nat.lt_or_ge j 32 with h32 | h32
    · have : j - s < 32 - s := by omega
      simp [this]
    · have hxj : x.testBit j = false :=
        Nat.testBit_lt_two_pow
          (lt_of_lt_of_le hx (Nat.pow_le_pow_right (by norm_num) h32))
      have : ¬ (j - s < 32 - s) := by omega
      simp [this, hxj]

theorem aligned_add_le {s n : Nat} (hs : s ≤ 32) (hn : n % 2 ^ s = 0)
    (hn2 : n < 2 ^ 32) : n + 2 ^ s ≤ 2 ^ 32 := by
  obtain ⟨q, hq⟩ : 2 ^ s ∣ n := Nat.dvd_of_mod_eq_zero hn
  have h1 : 2 ^ s * 2 ^ (32 - s) = 2 ^ 32 := by
    rw [← pow_add]
    congr 1
    omega
  have hqlt : q < 2 ^ (32 - s) := by
    by_contra hq2
    push_neg at hq2
    have : 2 ^ 32 ≤ n := by
      calc 2 ^ 32 = 2 ^ s * 2 ^ (32 - s) := h1.symm
      _ ≤ 2 ^ s * q := Nat.mul_le_mul_left _ hq2
      _ = n := hq.symm
    omega
  calc n + 2 ^ s = 2 ^ s * (q + 1) := by rw [hq]; ring
  _ ≤ 2 ^ s * 2 ^ (32 - s) := Nat.mul_le_mul_left _ (by omega)
  _ = 2 ^ 32 := h1

theorem ipContains_iff {s n x : Nat} (hs : s ≤ 32) (hn : n % 2 ^ s = 0)
    (hx : x < 2 ^ 32) :
    ipContains n (2 ^ 32 - 2 ^ s) x = true ↔ n ≤ x ∧ x < n + 2 ^ s := by
  unfold ipContains
  rw [beq_iff_eq, land_highMask s x hs hx]
  constructor
  · intro h
    constructor
    · rw [← h]
      exact Nat.div_mul_le_self x (2 ^ s)
    · have hm : x % 2 ^ s < 2 ^ s := Nat.mod_lt x (Nat.two_pow_pos s)
      calc x = x / 2 ^ s * 2 ^ s + x % 2 ^ s := (Nat.div_add_mod' x (2 ^ s)).symm
      _ = n + x % 2 ^ s := by rw [h]
      _ < n + 2 ^ s := Nat.add_lt_add_left hm n
  · rintro ⟨h1, h2⟩
    have hnd : n / 2 ^ s * 2 ^ s = n := Nat.div_mul_cancel (Nat.dvd_of_mod_eq_zero hn)
    have : x / 2 ^ s = n / 2 ^ s := by
      apply Nat.div_eq_of_lt_le
      · rw [hnd]; exact h1
      · rw [Nat.succ_mul, hnd]; exact h2
    rw [this, hnd]

theorem contains_end {s n : Nat} (hs : s ≤ 31) (hn : n % 2 ^ s = 0)
    (hn2 : n < 2 ^ 32) :
    ipContains n (2 ^ 32 - 2 ^ s) ((n + 2 ^ s) % 2 ^ 32) = false := by
  have hle := aligned_add_le (by omega) hn hn2
  rcases Nat.lt_or_ge (n + 2 ^ s) (2 ^ 32) with hlt | hge
  · rw [Nat.mod_eq_of_lt hlt]
    cases hc : ipContains n (2 ^ 32 - 2 ^ s) (n + 2 ^ s) with
    | false => rfl
    | true =>
      have := (ipContains_iff (by omega) hn hlt).mp hc
      omega
  · have heq : n + 2 ^ s = 2 ^ 32 := by omega
    rw [heq, Nat.mod_self]
    cases hc : ipContains n (2 ^ 32 - 2 ^ s) 0 with
    | false => rfl
    | true =>
      have h0 := (ipContains_iff (by omega) hn (Nat.two_pow_pos 32)).mp hc
      have hn0 : n = 0 := by omega
      have : 2 ^ s < 2 ^ 32 := Nat.pow_lt_pow_right (by norm_num) (by omega)
      omega

/-! ### The expansion loop of `parseCIDR` -/

theorem expandLoop_run {s n : Nat} (hs : s ≤ 31) (hn : n % 2 ^ s = 0)
    (hn2 : n < 2 ^ 32) :
    ∀ d fuel, d ≤ 2 ^ s → d < fuel →
      expandLoop fuel n (2 ^ 32 - 2 ^ s) ((n + (2 ^ s - d)) % 2 ^ 32) =
        some ((List.range d).map (fun i => n + (2 ^ s - d) + i)) := by
  intro d
  induction d with
  | zero =>
    intro fuel _ hfuel
    obtain ⟨fuel, rfl⟩ : ∃ f, fuel = f + 1 := ⟨fuel - 1, by omega⟩
    rw [Nat.sub_zero]
    simp only [expandLoop, contains_end hs hn hn2, Bool.false_eq_true, if_false,
      List.range_zero, List.map_nil]
  | succ d ih =>
    intro fuel hd hfuel
    obtain ⟨fuel, rfl⟩ : ∃ f, fuel = f + 1 := ⟨fuel - 1, by omega⟩
    have hnle : n + 2 ^ s ≤ 2 ^ 32 := aligned_add_le (by omega) hn hn2
    have harg : (n + (2 ^ s - (d + 1))) % 2 ^ 32 = n + (2 ^ s - (d + 1)) :=
      Nat.mod_eq_of_lt (by omega)
    rw [harg]
    have hcont : ipContains n (2 ^ 32 - 2 ^ s) (n + (2 ^ s - (d + 1))) = true :=
      (ipContains_iff (by omega) hn (by omega)).mpr ⟨by omega, by omega⟩
    have hinc : incIP (n + (2 ^ s - (d + 1))) = (n + (2 ^ s - d)) % 2 ^ 32 := by
      unfold incIP
      congr 1
      omega
    rw [expandLoop, hcont]
    rw [if_pos rfl, hinc, ih fuel (by omega) (by omega)]
    simp only [Option.map_some']
    congr 1
    rw [List.range_succ_eq_map, List.map_cons, List.map_map]
    congr 1
    apply List.map_congr_left
    intro i hi
    simp only [Function.comp_apply]
    omega

theorem expandLoop_all {s n : Nat} (hs : s ≤ 31) (hn : n % 2 ^ s = 0)
    (hn2 : n < 2 ^ 32) {fuel : Nat} (hf : 2 ^ s < fuel) :
    expandLoop fuel n (2 ^ 32 - 2 ^ s) n =
      some ((List.range (2 ^ s)).map (fun i => n + i)) := by
  have h := expandLoop_run hs hn hn2 (2 ^ s) fuel le_rfl hf
  rw [Nat.sub_self, Nat.add_zero, Nat.mod_eq_of_lt hn2] at h
  rw [h]

theorem expandLoop_mask_zero (x : Nat) : ∀ fuel, expandLoop fuel 0 0 x = none := by
  intro fuel
  induction fuel generalizing x with
  | zero => rfl
  | succ f ih =>
    simp only [expandLoop, ipContains, Nat.and_zero, beq_self_eq_true, if_true,
      ih (incIP x), Option.map_none']

/-! ### The network address -/

theorem network_eq_div (base p : Nat) (hb : base < 2 ^ 32) (hp : p ≤ 32) :
    network base p = base / 2 ^ (32 - p) * 2 ^ (32 - p) := by
  unfold network maskOf
  exact land_highMask (32 - p) base (by omega) hb

theorem network_mod (base p : Nat) (hb : base < 2 ^ 32) (hp : p ≤ 32) :
    network base p % 2 ^ (32 - p) = 0 := by
  rw [network_eq_div base p hb hp]
  exact Nat.mul_mod_left _ _

theorem network_lt (base p : Nat) (hb : base < 2 ^ 32) (hp : p ≤ 32) :
    network base p < 2 ^ 32 := by
  rw [network_eq_div base p hb hp]
  exact lt_of_le_of_lt (Nat.div_mul_le_self base (2 ^ (32 - p))) hb

/-! ### `parseCIDR` -/

theorem middle_slice (n k : Nat) (hk : 2 ≤ k) :
    (((List.range k).map (fun i => n + i)).drop 1).dropLast =
      (List.range (k - 2)).map (fun i => n + 1 + i) := by
  apply List.ext_getElem
  · simp only [List.length_dropLast, List.length_drop, List.length_map,
      List.length_range]
    omega
  · intro i h1 h2
    rw [List.getElem_dropLast, List.getElem_drop, List.getElem_map,
      List.getElem_range, List.getElem_map, List.getElem_range]
    omega

theorem parseCIDR_eval {base p fuel : Nat} (hb : base < 2 ^ 32) (hp1 : 1 ≤ p)
    (hp32 : p ≤ 32) (hf : 2 ^ (32 - p) < fuel) :
    parseCIDR fuel base p =
      some (if 2 ^ (32 - p) < 2 then Except.error CIDRErr.rangeTooSmall
            else Except.ok
              (((List.range (2 ^ (32 - p) - 2)).map
                  (fun i => network base p + 1 + i)).map ipString)) := by
  have h := expandLoop_all (s := 32 - p) (n := network base p) (by omega)
    (network_mod base p hb hp32) (network_lt base p hb hp32) hf
  unfold parseCIDR
  rw [show maskOf p = 2 ^ 32 - 2 ^ (32 - p) from rfl, h]
  simp only [List.length_map, List.length_range]
  rcases Nat.lt_or_ge (2 ^ (32 - p)) 2 with hk | hk
  · rw [if_pos hk, if_pos hk]
  · rw [if_neg (by omega), if_neg (by omega), middle_slice _ _ hk]

theorem parseCIDR_mask_zero (base fuel : Nat) : parseCIDR fuel base 0 = none := by
  have hm : maskOf 0 = 0 := by
    unfold maskOf
    simp
  have hn : network base 0 = 0 := by
    unfold network
    rw [hm, Nat.and_zero]
  unfold parseCIDR
  rw [hm, hn, expandLoop_mask_zero]

/-- **C1** (amended to prefix lengths `1 ≤ p ≤ 30`): for every valid IPv4
CIDR `base/p` with `1 ≤ p ≤ 30`, `parseCIDR` returns exactly
`2 ^ (32 - p) - 2` address strings, the renderings of the ascending list of
all addresses strictly between the network and the broadcast address,
containing neither of those two.  For `p = 0` the expansion loop never
exits (see the counterexample), so the bound `1 ≤ p` is necessary. -/
theorem parseCIDR_expansion (base p fuel : Nat) (hb : base < 2 ^ 32)
    (hp1 : 1 ≤ p) (hp : p ≤ 30) (hf : 2 ^ (32 - p) < fuel) :
    ∃ nums : List Nat,
      nums = (List.range (2 ^ (32 - p) - 2)).map (fun i => network base p + 1 + i) ∧
      parseCIDR fuel base p = some (Except.ok (nums.map ipString)) ∧
      (nums.map ipString).length = 2 ^ (32 - p) - 2 ∧
      nums.Pairwise (· < ·) ∧
      (∀ x, x ∈ nums ↔ network base p < x ∧ x < broadcast base p) := by
  have hk : 4 ≤ 2 ^ (32 - p) := by
    calc (4 : Nat) = 2 ^ 2 := by norm_num
    _ ≤ 2 ^ (32 - p) := Nat.pow_le_pow_right (by norm_num) (by omega)
  refine ⟨_, rfl, ?_, ?_, ?_, ?_⟩
  · rw [parseCIDR_eval hb hp1 (by omega) hf, if_neg (by omega)]
  · simp
  · rw [List.pairwise_map]
    exact (List.pairwise_lt_range _).imp (fun hab => by omega)
  · intro x
    simp only [List.mem_map, List.mem_range, broadcast]
    constructor
    · rintro ⟨i, hi, rfl⟩
      omega
    · rintro ⟨h1, h2⟩
      exact ⟨x - network base p - 1, by omega, by omega⟩

/-- Witness for C1: the concrete block `192.168.1.0/30`
(base `3232235776`). -/
theorem parseCIDR_expansion_witness :
    ∃ nums : List Nat,
      nums = (List.range (2 ^ (32 - 30) - 2)).map
        (fun i => network 3232235776 30 + 1 + i) ∧
      parseCIDR 5 3232235776 30 = some (Except.ok (nums.map ipString)) ∧
      (nums.map ipString).length = 2 ^ (32 - 30) - 2 ∧
      nums.Pairwise (· < ·) ∧
      (∀ x, x ∈ nums ↔
        network 3232235776 30 < x ∧ x < broadcast 3232235776 30) :=
  parseCIDR_expansion 3232235776 30 5 (by norm_num) (by norm_num) (by norm_num)
    (by norm_num)

/-- Counterexample for C1 as stated: `0.0.0.0/0` is a valid IPv4 CIDR with
prefix length at most 30, but the expansion loop never exits (it wraps from
`255.255.255.255` back to `0.0.0.0`, which the `/0` block still contains),
so `parseCIDR` does not return at all — here witnessed with fuel `2 ^ 33`,
more iterations than the `2 ^ 32 - 2` addresses the claim predicts; by
`expandLoop_mask_zero` the result is `none` for every fuel. -/
theorem parseCIDR_slash0_cex : parseCIDR (2 ^ 33) 0 0 = none :=
  parseCIDR_mask_zero 0 (2 ^ 33)

/-- **C4** (amended): only prefix length 32 makes `parseCIDR` fail with the
`RangeTooSmall` error ("network too small for scanning"); a `/31` block has
exactly 2 addresses, so the `len(ips) < 2` guard does not fire and the call
succeeds with an empty usable-address list.  Both yield zero probe
outcomes, and processing of the other CIDRs of the same invocation is
unaffected (each list entry is processed independently). -/
theorem parseCIDR_smallRanges (base fuel : Nat) (alive : String → Bool)
    (hb : base < 2 ^ 32) (hf : 2 < fuel) :
    parseCIDR fuel base 31 = some (Except.ok []) ∧
    parseCIDR fuel base 32 = some (Except.error CIDRErr.rangeTooSmall) ∧
    processCIDR fuel alive base 31 = some [] ∧
    processCIDR fuel alive base 32 = some [] ∧
    (∀ pre post : List (Nat × Nat),
      runAll fuel alive (pre ++ (base, 31) :: post) =
        runAll fuel alive pre ++ some [] :: runAll fuel alive post) ∧
    (∀ pre post : List (Nat × Nat),
      runAll fuel alive (pre ++ (base, 32) :: post) =
        runAll fuel alive pre ++ some [] :: runAll fuel alive post) := by
  have h31 : parseCIDR fuel base 31 = some (Except.ok []) := by
    rw [parseCIDR_eval hb (by norm_num) (by norm_num) (by norm_num; omega)]
    norm_num
  have h32 : parseCIDR fuel base 32 = some (Except.error CIDRErr.rangeTooSmall) := by
    rw [parseCIDR_eval hb (by norm_num) (by norm_num) (by norm_num; omega)]
    norm_num
  have hp31 : processCIDR fuel alive base 31 = some [] := by
    unfold processCIDR
    rw [h31]
    rfl
  have hp32 : processCIDR fuel alive base 32 = some [] := by
    unfold processCIDR
    rw [h32]
  refine ⟨h31, h32, hp31, hp32, ?_, ?_⟩ <;>
    · intro pre post
      unfold runAll
      rw [List.map_append, List.map_cons]
      simp only [hp31, hp32]

/-- Witness for C4: the spec's own example block `192.168.1.0/31`
(base `3232235776`), and a neighbouring valid block on each side. -/
theorem parseCIDR_smallRanges_witness :
    parseCIDR 4 3232235776 31 = some (Except.ok []) ∧
    parseCIDR 4 3232235776 32 = some (Except.error CIDRErr.rangeTooSmall) ∧
    processCIDR 4 (fun _ => false) 3232235776 31 = some [] ∧
    processCIDR 4 (fun _ => false) 3232235776 32 = some [] ∧
    (∀ pre post : List (Nat × Nat),
      runAll 4 (fun _ => false) (pre ++ (3232235776, 31) :: post) =
        runAll 4 (fun _ => false) pre ++
          some [] :: runAll 4 (fun _ => false) post) ∧
    (∀ pre post : List (Nat × Nat),
      runAll 4 (fun _ => false) (pre ++ (3232235776, 32) :: post) =
        runAll 4 (fun _ => false) pre ++
          some [] :: runAll 4 (fun _ => false) post) :=
  parseCIDR_smallRanges 3232235776 4 (fun _ => false) (by norm_num) (by norm_num)

/-- Counterexample for C4 as stated: on input `192.168.1.0/31` the code
does not produce a `RangeTooSmall` error — the expansion collects exactly
2 addresses, the `len(ips) < 2` guard does not fire, and `parseCIDR`
succeeds with an empty list of usable addresses. -/
theorem parseCIDR_slash31_cex :
    parseCIDR 4 3232235776 31 = some (Except.ok []) ∧
    parseCIDR 4 3232235776 31 ≠ some (Except.error CIDRErr.rangeTooSmall) := by
  constructor
  · rfl
  · intro h
    rw [show parseCIDR 4 3232235776 31 = some (Except.ok ([] : List String))
      from rfl] at h
    injection h with h'
    exact Except.noConfusion h'

/-! ### The chunking loop of `splitIntoSubnets` -/

theorem subnetsLoop_run {s n : Nat} (hs8 : 8 ≤ s) (hs : s ≤ 31)
    (hn : n % 2 ^ s = 0) (hn2 : n < 2 ^ 32) :
    ∀ d fuel, 1 ≤ d → d ≤ 2 ^ (s - 8) → d ≤ fuel →
      subnetsLoop fuel n (2 ^ 32 - 2 ^ s) (n + 256 * (2 ^ (s - 8) - d)) =
        some ((List.range d).map
          (fun i => n + 256 * (2 ^ (s - 8) - d) + 256 * i)) := by
  have hK : 256 * 2 ^ (s - 8) = 2 ^ s := by
    rw [show (256 : Nat) = 2 ^ 8 from by norm_num, ← pow_add]
    congr 1
    omega
  have hnle : n + 2 ^ s ≤ 2 ^ 32 := aligned_add_le (by omega) hn hn2
  intro d
  induction d with
  | zero =>
    intro fuel h1 _ _
    exact absurd h1 (by omega)
  | succ d ih =>
    intro fuel _ hd hfuel
    obtain ⟨fuel, rfl⟩ : ∃ f, fuel = f + 1 := ⟨fuel - 1, by omega⟩
    rcases Nat.eq_zero_or_pos d with hd0 | hd0
    · subst hd0
      have hnext : (n + 256 * (2 ^ (s - 8) - 1) + 256) % 2 ^ 32 =
          (n + 2 ^ s) % 2 ^ 32 := by
        congr 1
        omega
      rw [subnetsLoop, hnext, contains_end hs hn hn2]
      norm_num [List.range_succ]
    · have hnext : (n + 256 * (2 ^ (s - 8) - (d + 1)) + 256) % 2 ^ 32 =
          n + 256 * (2 ^ (s - 8) - d) := by
        have he : n + 256 * (2 ^ (s - 8) - (d + 1)) + 256 =
            n + 256 * (2 ^ (s - 8) - d) := by omega
        rw [he, Nat.mod_eq_of_lt (by omega)]
      have hcont : ipContains n (2 ^ 32 - 2 ^ s)
          (n + 256 * (2 ^ (s - 8) - d)) = true :=
        (ipContains_iff (by omega) hn (by omega)).mpr ⟨by omega, by omega⟩
      rw [subnetsLoop, hnext, hcont, if_pos rfl,
        ih fuel (by omega) (by omega) (by omega)]
      simp only [Option.map_some']
      congr 1
      rw [List.range_succ_eq_map, List.map_cons, List.map_map]
      congr 1
      all_goals
        first
        | omega
        | (apply List.map_congr_left
           intro i hi
           simp only [Function.comp_apply]
           omega)

theorem subnetsLoop_all {s n : Nat} (hs8 : 8 ≤ s) (hs : s ≤ 31)
    (hn : n % 2 ^ s = 0) (hn2 : n < 2 ^ 32) {fuel : Nat}
    (hf : 2 ^ (s - 8) ≤ fuel) :
    subnetsLoop fuel n (2 ^ 32 - 2 ^ s) n =
      some ((List.range (2 ^ (s - 8))).map (fun i => n + 256 * i)) := by
  have h := subnetsLoop_run hs8 hs hn hn2 (2 ^ (s - 8)) fuel
    (Nat.one_le_two_pow) le_rfl hf
  rw [Nat.sub_self, Nat.mul_zero, Nat.add_zero] at h
  exact h

theorem subnetsLoop_mask_zero (x : Nat) : ∀ fuel, subnetsLoop fuel 0 0 x = none := by
  intro fuel
  induction fuel generalizing x with
  | zero => rfl
  | succ f ih =>
    simp only [subnetsLoop, ipContains, Nat.and_zero, beq_self_eq_true, if_true,
      ih ((x + 256) % 2 ^ 32), Option.map_none']

theorem splitIntoSubnets_mask_zero (base fuel : Nat) :
    splitIntoSubnets fuel base 0 = none := by
  have hm : maskOf 0 = 0 := by
    unfold maskOf
    simp
  have hn : network base 0 = 0 := by
    unfold network
    rw [hm, Nat.and_zero]
  unfold splitIntoSubnets
  rw [if_neg (by omega), hm, hn, subnetsLoop_mask_zero]
  rfl

theorem flat_chunks (n K : Nat) :
    ((List.range K).map (fun i => (n + 256 * i, 24))).flatMap chunkAddrs =
      (List.range (256 * K)).map (fun a => n + a) := by
  induction K with
  | zero => simp
  | succ K ih =>
    have hsing : chunkAddrs ((n + 256 * K, 24)) =
        (List.range 256).map (fun i => n + (256 * K + i)) := by
      unfold chunkAddrs
      norm_num
      intro a ha
      omega
    rw [List.range_succ, List.map_append, List.flatMap_append, ih,
      show 256 * (K + 1) = 256 * K + 256 from by ring, List.range_add,
      List.map_append, List.map_map]
    simp only [List.map_cons, List.map_nil, List.flatMap_cons, List.flatMap_nil,
      List.append_nil, hsing]
    rfl

/-- **C2** (amended to prefix lengths `1 ≤ p < 24`): for every valid IPv4
CIDR `base/p` with `1 ≤ p < 24`, `splitIntoSubnets` returns the ascending
list of `2 ^ (24 - p)` chunks, each of prefix length exactly 24 with a
256-aligned base, pairwise disjoint as address sets, whose concatenated
address sets are exactly the address set of the input block.  For `p = 0`
the chunking loop never exits (see the counterexample), so the bound
`1 ≤ p` is necessary. -/
theorem splitIntoSubnets_partition (base p fuel : Nat) (hb : base < 2 ^ 32)
    (hp1 : 1 ≤ p) (hp : p < 24) (hf : 2 ^ (24 - p) ≤ fuel) :
    ∃ chunks : List (Nat × Nat),
      chunks = (List.range (2 ^ (24 - p))).map
        (fun i => (network base p + 256 * i, 24)) ∧
      splitIntoSubnets fuel base p = some chunks ∧
      (∀ c ∈ chunks, c.2 = 24 ∧ c.1 % 256 = 0) ∧
      chunks.flatMap chunkAddrs =
        (List.range (2 ^ (32 - p))).map (fun i => network base p + i) ∧
      chunks.Pairwise (fun c d => ∀ a, a ∈ chunkAddrs c → a ∉ chunkAddrs d) ∧
      chunks.Pairwise (fun c d => c.1 < d.1) := by
  have hs8 : 8 ≤ 32 - p := by omega
  have hsub : 32 - p - 8 = 24 - p := by omega
  have h256 : 256 * 2 ^ (24 - p) = 2 ^ (32 - p) := by
    rw [show (256 : Nat) = 2 ^ 8 from by norm_num, ← pow_add]
    congr 1
    omega
  have hmod := network_mod base p hb (by omega)
  have hlt := network_lt base p hb (by omega)
  have hm256 : network base p % 256 = 0 := by
    obtain ⟨q, hq⟩ : (256 : Nat) ∣ network base p := by
      refine dvd_trans ?_ (Nat.dvd_of_mod_eq_zero hmod)
      rw [show (256 : Nat) = 2 ^ 8 from by norm_num]
      exact pow_dvd_pow 2 hs8
    omega
  refine ⟨_, rfl, ?_, ?_, ?_, ?_, ?_⟩
  · unfold splitIntoSubnets
    rw [if_neg (by omega), show maskOf p = 2 ^ 32 - 2 ^ (32 - p) from rfl]
    have h := subnetsLoop_all (s := 32 - p) (n := network base p) hs8 (by omega)
      hmod hlt (show 2 ^ (32 - p - 8) ≤ fuel by rw [hsub]; exact hf)
    rw [hsub] at h
    rw [h]
    simp only [Option.map_some', List.map_map]
    rfl
  · intro c hc
    simp only [List.mem_map, List.mem_range] at hc
    obtain ⟨i, hi, rfl⟩ := hc
    exact ⟨rfl, by omega⟩
  · rw [flat_chunks, h256]
  · rw [List.pairwise_map]
    refine (List.pairwise_lt_range _).imp ?_
    intro i j hij a ha ha'
    norm_num [chunkAddrs] at ha ha'
    obtain ⟨x, hx, hxe⟩ := ha
    obtain ⟨y, hy, hye⟩ := ha'
    omega
  · rw [List.pairwise_map]
    refine (List.pairwise_lt_range _).imp ?_
    intro i j hij
    simp only
    omega

/-- Witness for C2: the spec's own example block `10.0.0.0/23`
(base `167772160`), which subdivides into two /24 chunks. -/
theorem splitIntoSubnets_partition_witness :
    ∃ chunks : List (Nat × Nat),
      chunks = (List.range (2 ^ (24 - 23))).map
        (fun i => (network 167772160 23 + 256 * i, 24)) ∧
      splitIntoSubnets 2 167772160 23 = some chunks ∧
      (∀ c ∈ chunks, c.2 = 24 ∧ c.1 % 256 = 0) ∧
      chunks.flatMap chunkAddrs =
        (List.range (2 ^ (32 - 23))).map (fun i => network 167772160 23 + i) ∧
      chunks.Pairwise (fun c d => ∀ a, a ∈ chunkAddrs c → a ∉ chunkAddrs d) ∧
      chunks.Pairwise (fun c d => c.1 < d.1) :=
  splitIntoSubnets_partition 167772160 23 2 (by norm_num) (by norm_num)
    (by norm_num) (by norm_num)

/-- Counterexample for C2 as stated: `0.0.0.0/0` has prefix length `< 24`,
but the chunking loop never exits (stepping past `255.255.255.0` wraps the
`uint32` to `0.0.0.0`, which the `/0` block still contains), so
`splitIntoSubnets` does not return a chunk sequence at all — here witnessed
with fuel `2 ^ 26 + 1`, more iterations than the `2 ^ 24` chunks the claim
predicts; by `subnetsLoop_mask_zero` the result is `none` for every fuel. -/
theorem splitIntoSubnets_slash0_cex : splitIntoSubnets (2 ^ 26 + 1) 0 0 = none :=
  splitIntoSubnets_mask_zero 0 (2 ^ 26 + 1)

/-- **C5**: the claimed universal termination of `splitIntoSubnets` fails on
the valid maximum-size block `0.0.0.0/0`: the `uint32` step `ipInt += 256`
wraps silently past `255.255.255.0` back to `0.0.0.0`, the containment
check still succeeds, and the loop never exits — for every fuel the
embedded loop fails to finish.  (For every prefix length `≥ 1` the loop
does terminate, cf. `splitIntoSubnets_partition`.) -/
theorem splitIntoSubnets_slash0_diverges (fuel : Nat) :
    splitIntoSubnets fuel 0 0 = none :=
  splitIntoSubnets_mask_zero 0 fuel

/-! ### List helpers for the dispatcher invariant -/

theorem set_self {α : Type} (l : List α) (i : Nat) (h : i < l.length) :
    l.set i (l.get ⟨i, h⟩) = l := by
  apply List.ext_getElem
  · simp
  · intro j h1 h2
    rw [List.getElem_set]
    split
    next heq => subst heq; rfl
    next => rfl

theorem filterMap_set_congr {α β : Type} (f : α → Option β) :
    ∀ (l : List α) (i : Nat) (a : α) (h : i < l.length),
      f a = f (l.get ⟨i, h⟩) → (l.set i a).filterMap f = l.filterMap f := by
  intro l
  induction l with
  | nil => intro i a h _; simp at h
  | cons x xs ih =>
    intro i a h he
    cases i with
    | zero =>
      simp only [List.get] at he
      simp only [List.set_cons_zero, List.filterMap_cons, he]
    | succ j =>
      simp only [List.get] at he
      simp only [List.set_cons_succ, List.filterMap_cons]
      have hj : j < xs.length := by simpa using h
      cases hfx : f x with
      | none => exact ih j a hj he
      | some y => rw [ih j a hj he]

theorem filterMap_set_insert {α β : Type} (f : α → Option β) :
    ∀ (l : List α) (i : Nat) (a : α) (b : β) (h : i < l.length),
      f (l.get ⟨i, h⟩) = none → f a = some b →
      ((l.set i a).filterMap f).Perm (l.filterMap f ++ [b]) := by
  intro l
  induction l with
  | nil => intro i a b h _ _; simp at h
  | cons x xs ih =>
    intro i a b h hnone hsome
    cases i with
    | zero =>
      simp only [List.get] at hnone
      simp only [List.set_cons_zero, List.filterMap_cons, hnone, hsome]
      exact (List.perm_append_singleton b _).symm
    | succ j =>
      simp only [List.get] at hnone
      have hj : j < xs.length := by simpa using h
      simp only [List.set_cons_succ, List.filterMap_cons]
      cases hfx : f x with
      | none => exact ih j a b hj hnone hsome
      | some y => exact (ih j a b hj hnone hsome).cons y

theorem map_snd_set (tasks : List (TaskPC × String)) (i : Nat) (pc' pc : TaskPC)
    (ip : String) (h : i < tasks.length) (he : tasks.get ⟨i, h⟩ = (pc, ip)) :
    (tasks.set i (pc', ip)).map Prod.snd = tasks.map Prod.snd := by
  have hlen : i < (tasks.map Prod.snd).length := by simpa using h
  have hm : (tasks.map Prod.snd).get ⟨i, hlen⟩ = ip := by
    simp only [List.get_eq_getElem, List.getElem_map]
    rw [show tasks[i] = (pc, ip) from he]
  rw [List.map_set]
  calc (tasks.map Prod.snd).set i ip
      = (tasks.map Prod.snd).set i ((tasks.map Prod.snd).get ⟨i, hlen⟩) := by
        rw [hm]
  _ = tasks.map Prod.snd := set_self _ _ _

theorem emitted_set_congr {alive : String → Bool} (tasks : List (TaskPC × String))
    (i : Nat) (a : TaskPC × String) (h : i < tasks.length)
    (hp : PastSend a.1 = PastSend (tasks.get ⟨i, h⟩).1)
    (hs : a.2 = (tasks.get ⟨i, h⟩).2) :
    emitted alive (tasks.set i a) = emitted alive tasks := by
  unfold emitted
  apply filterMap_set_congr _ _ _ _ h
  rw [hp, hs]

theorem emitted_set_insert {alive : String → Bool} (tasks : List (TaskPC × String))
    (i : Nat) (a : TaskPC × String) (h : i < tasks.length)
    (hnone : PastSend (tasks.get ⟨i, h⟩).1 = false)
    (hsome : PastSend a.1 = true) :
    (emitted alive (tasks.set i a)).Perm
      (emitted alive tasks ++ [⟨a.2, alive a.2⟩]) := by
  unfold emitted
  apply filterMap_set_insert _ _ _ _ _ h
  · rw [hnone]
    rfl
  · rw [hsome]
    rfl

theorem sum_map_set {α : Type} (f : α → Nat) :
    ∀ (l : List α) (i : Nat) (a : α) (h : i < l.length),
      ((l.set i a).map f).sum + f (l.get ⟨i, h⟩) = (l.map f).sum + f a := by
  intro l
  induction l with
  | nil => intro i a h; simp at h
  | cons x xs ih =>
    intro i a h
    cases i with
    | zero => simp [List.set_cons_zero]; omega
    | succ j =>
      have hj : j < xs.length := by simpa using h
      simp only [List.set_cons_succ, List.map_cons, List.sum_cons, List.get]
      have := ih j a hj
      omega

/-! ### Step characterizations -/

theorem step_oob {maxT : Nat} {alive : String → Bool} {s : DispState} {i : Nat}
    (hi : s.tasks[i]? = none) : step maxT alive s i = s := by
  unfold step
  rw [hi]

theorem step_acquire {maxT : Nat} {alive : String → Bool} {s : DispState}
    {i : Nat} {ip : String} (hi : s.tasks[i]? = some (TaskPC.acquire, ip))
    (hsem : s.sem < maxT) :
    step maxT alive s i =
      { s with tasks := s.tasks.set i (TaskPC.probe, ip), sem := s.sem + 1 } := by
  unfold step
  rw [hi]
  exact if_pos hsem

theorem step_acquire_blocked {maxT : Nat} {alive : String → Bool} {s : DispState}
    {i : Nat} {ip : String} (hi : s.tasks[i]? = some (TaskPC.acquire, ip))
    (hsem : ¬ s.sem < maxT) : step maxT alive s i = s := by
  unfold step
  rw [hi]
  exact if_neg hsem

theorem step_probe {maxT : Nat} {alive : String → Bool} {s : DispState}
    {i : Nat} {ip : String} (hi : s.tasks[i]? = some (TaskPC.probe, ip)) :
    step maxT alive s i = { s with tasks := s.tasks.set i (TaskPC.send, ip) } := by
  unfold step
  rw [hi]

theorem step_send {maxT : Nat} {alive : String → Bool} {s : DispState}
    {i : Nat} {ip : String} (hi : s.tasks[i]? = some (TaskPC.send, ip)) :
    step maxT alive s i =
      { s with tasks := s.tasks.set i (TaskPC.release, ip),
               results := s.results ++ [⟨ip, alive ip⟩] } := by
  unfold step
  rw [hi]

theorem step_release {maxT : Nat} {alive : String → Bool} {s : DispState}
    {i : Nat} {ip : String} (hi : s.tasks[i]? = some (TaskPC.release, ip)) :
    step maxT alive s i =
      { s with tasks := s.tasks.set i (TaskPC.signal, ip), sem := s.sem - 1 } := by
  unfold step
  rw [hi]

theorem step_signal {maxT : Nat} {alive : String → Bool} {s : DispState}
    {i : Nat} {ip : String} (hi : s.tasks[i]? = some (TaskPC.signal, ip)) :
    step maxT alive s i =
      { s with tasks := s.tasks.set i (TaskPC.done, ip),
               progress := s.progress + 1 } := by
  unfold step
  rw [hi]

theorem step_done {maxT : Nat} {alive : String → Bool} {s : DispState}
    {i : Nat} {ip : String} (hi : s.tasks[i]? = some (TaskPC.done, ip)) :
    step maxT alive s i = s := by
  unfold step
  rw [hi]

/-! ### Preservation of the dispatcher invariant -/

theorem step_inv {maxT : Nat} {alive : String → Bool} {ips : List String}
    {s : DispState} (hInv : Inv maxT alive ips s) (i : Nat) :
    Inv maxT alive ips (step maxT alive s i) := by
  cases hi : s.tasks[i]? with
  | none => rw [step_oob hi]; exact hInv
  | some t =>
    obtain ⟨pc, ip⟩ := t
    obtain ⟨hlen, hgetE⟩ := List.getElem?_eq_some.mp hi
    have hget : s.tasks.get ⟨i, hlen⟩ = (pc, ip) := hgetE
    have hmem : s.tasks[i] ∈ s.tasks := List.getElem_mem hlen
    have hsemEq := hInv.semEq
    have hprogEq := hInv.progEq
    cases pc with
    | acquire =>
      by_cases hsem : s.sem < maxT
      · rw [step_acquire hi hsem]
        refine ⟨?_, ?_, ?_, ?_, ?_⟩ <;> dsimp only
        · exact (map_snd_set _ _ _ _ _ hlen hget).trans hInv.ipsEq
        · rw [List.countP_set _ _ _ _ hlen, hgetE,
            show (if slotHolder (TaskPC.acquire, ip) = true then 1 else 0) = 0 from rfl,
            show (if slotHolder (TaskPC.probe, ip) = true then 1 else 0) = 1 from rfl]
          omega
        · exact hsem
        · have he : emitted alive (s.tasks.set i (TaskPC.probe, ip)) =
              emitted alive s.tasks :=
            emitted_set_congr s.tasks i (TaskPC.probe, ip) hlen (by rw [hget]; try rfl) (by rw [hget]; try rfl)
          show s.results.Perm (emitted alive (s.tasks.set i (TaskPC.probe, ip)))
          rw [he]
          exact hInv.resPerm
        · rw [List.countP_set _ _ _ _ hlen, hgetE,
            show (if doneTask (TaskPC.acquire, ip) = true then 1 else 0) = 0 from rfl,
            show (if doneTask (TaskPC.probe, ip) = true then 1 else 0) = 0 from rfl]
          omega
      · rw [step_acquire_blocked hi hsem]
        exact hInv
    | probe =>
      rw [step_probe hi]
      have hpos : 0 < s.tasks.countP slotHolder :=
        List.countP_pos_iff.mpr ⟨s.tasks[i], hmem, by rw [hgetE]; rfl⟩
      refine ⟨?_, ?_, ?_, ?_, ?_⟩ <;> dsimp only
      · exact (map_snd_set _ _ _ _ _ hlen hget).trans hInv.ipsEq
      · rw [List.countP_set _ _ _ _ hlen, hgetE,
          show (if slotHolder (TaskPC.probe, ip) = true then 1 else 0) = 1 from rfl,
          show (if slotHolder (TaskPC.send, ip) = true then 1 else 0) = 1 from rfl]
        omega
      · exact hInv.semLe
      · have he : emitted alive (s.tasks.set i (TaskPC.send, ip)) =
            emitted alive s.tasks :=
          emitted_set_congr s.tasks i (TaskPC.send, ip) hlen (by rw [hget]; try rfl) (by rw [hget]; try rfl)
        show s.results.Perm (emitted alive (s.tasks.set i (TaskPC.send, ip)))
        rw [he]
        exact hInv.resPerm
      · rw [List.countP_set _ _ _ _ hlen, hgetE,
          show (if doneTask (TaskPC.probe, ip) = true then 1 else 0) = 0 from rfl,
          show (if doneTask (TaskPC.send, ip) = true then 1 else 0) = 0 from rfl]
        omega
    | send =>
      rw [step_send hi]
      have hpos : 0 < s.tasks.countP slotHolder :=
        List.countP_pos_iff.mpr ⟨s.tasks[i], hmem, by rw [hgetE]; rfl⟩
      refine ⟨?_, ?_, ?_, ?_, ?_⟩ <;> dsimp only
      · exact (map_snd_set _ _ _ _ _ hlen hget).trans hInv.ipsEq
      · rw [List.countP_set _ _ _ _ hlen, hgetE,
          show (if slotHolder (TaskPC.send, ip) = true then 1 else 0) = 1 from rfl,
          show (if slotHolder (TaskPC.release, ip) = true then 1 else 0) = 1 from rfl]
        omega
      · exact hInv.semLe
      · have hins : (emitted alive (s.tasks.set i (TaskPC.release, ip))).Perm
            (emitted alive s.tasks ++ [⟨ip, alive ip⟩]) :=
          emitted_set_insert s.tasks i (TaskPC.release, ip) hlen
            (by rw [hget]; try rfl) rfl
        show (s.results ++ [(⟨ip, alive ip⟩ : PingResult)]).Perm
          (emitted alive (s.tasks.set i (TaskPC.release, ip)))
        exact (hInv.resPerm.append_right _).trans hins.symm
      · rw [List.countP_set _ _ _ _ hlen, hgetE,
          show (if doneTask (TaskPC.send, ip) = true then 1 else 0) = 0 from rfl,
          show (if doneTask (TaskPC.release, ip) = true then 1 else 0) = 0 from rfl]
        omega
    | release =>
      rw [step_release hi]
      refine ⟨?_, ?_, ?_, ?_, ?_⟩ <;> dsimp only
      · exact (map_snd_set _ _ _ _ _ hlen hget).trans hInv.ipsEq
      · rw [List.countP_set _ _ _ _ hlen, hgetE,
          show (if slotHolder (TaskPC.release, ip) = true then 1 else 0) = 1 from rfl,
          show (if slotHolder (TaskPC.signal, ip) = true then 1 else 0) = 0 from rfl]
        omega
      · have := hInv.semLe
        omega
      · have he : emitted alive (s.tasks.set i (TaskPC.signal, ip)) =
            emitted alive s.tasks :=
          emitted_set_congr s.tasks i (TaskPC.signal, ip) hlen (by rw [hget]; try rfl) (by rw [hget]; try rfl)
        show s.results.Perm (emitted alive (s.tasks.set i (TaskPC.signal, ip)))
        rw [he]
        exact hInv.resPerm
      · rw [List.countP_set _ _ _ _ hlen, hgetE,
          show (if doneTask (TaskPC.release, ip) = true then 1 else 0) = 0 from rfl,
          show (if doneTask (TaskPC.signal, ip) = true then 1 else 0) = 0 from rfl]
        omega
    | signal =>
      rw [step_signal hi]
      refine ⟨?_, ?_, ?_, ?_, ?_⟩ <;> dsimp only
      · exact (map_snd_set _ _ _ _ _ hlen hget).trans hInv.ipsEq
      · rw [List.countP_set _ _ _ _ hlen, hgetE,
          show (if slotHolder (TaskPC.signal, ip) = true then 1 else 0) = 0 from rfl,
          show (if slotHolder (TaskPC.done, ip) = true then 1 else 0) = 0 from rfl]
        omega
      · exact hInv.semLe
      · have he : emitted alive (s.tasks.set i (TaskPC.done, ip)) =
            emitted alive s.tasks :=
          emitted_set_congr s.tasks i (TaskPC.done, ip) hlen (by rw [hget]; try rfl) (by rw [hget]; try rfl)
        show s.results.Perm (emitted alive (s.tasks.set i (TaskPC.done, ip)))
        rw [he]
        exact hInv.resPerm
      · rw [List.countP_set _ _ _ _ hlen, hgetE,
          show (if doneTask (TaskPC.signal, ip) = true then 1 else 0) = 0 from rfl,
          show (if doneTask (TaskPC.done, ip) = true then 1 else 0) = 1 from rfl]
        omega
    | done =>
      rw [step_done hi]
      exact hInv

theorem run_inv {maxT : Nat} {alive : String → Bool} {ips : List String}
    (sched : List Nat) {s : DispState} (h : Inv maxT alive ips s) :
    Inv maxT alive ips (run maxT alive s sched) := by
  induction sched generalizing s with
  | nil => exact h
  | cons j rest ih => exact ih (step_inv h j)

theorem init_inv (maxT : Nat) (alive : String → Bool) (ips : List String) :
    Inv maxT alive ips (initState ips) := by
  refine ⟨?_, ?_, ?_, ?_, ?_⟩
  · simp [initState]
  · rw [show (initState ips).sem = 0 from rfl]
    symm
    rw [List.countP_eq_zero]
    intro t ht
    simp only [initState, List.mem_map] at ht
    obtain ⟨ip, _, rfl⟩ := ht
    simp [slotHolder, SlotHeld, doneTask, IsDone]
  · exact Nat.zero_le _
  · rw [show (initState ips).results = [] from rfl]
    have : emitted alive (initState ips).tasks = [] := by
      unfold emitted initState
      rw [List.filterMap_map]
      rw [List.filterMap_eq_nil_iff.mpr]
      intro ip _
      rfl
    rw [this]
  · rw [show (initState ips).progress = 0 from rfl]
    symm
    rw [List.countP_eq_zero]
    intro t ht
    simp only [initState, List.mem_map] at ht
    obtain ⟨ip, _, rfl⟩ := ht
    simp [slotHolder, SlotHeld, doneTask, IsDone]

/-! ### Terminal states of the dispatcher -/

theorem emitted_allDone {alive : String → Bool} :
    ∀ tasks : List (TaskPC × String), (∀ t ∈ tasks, t.1 = TaskPC.done) →
      emitted alive tasks = tasks.map (fun t => ⟨t.2, alive t.2⟩) := by
  intro tasks
  induction tasks with
  | nil => intro _; rfl
  | cons x xs ih =>
    intro h
    have hx : x.1 = TaskPC.done := h x (by simp)
    have hxs := ih (fun t ht => h t (by simp [ht]))
    unfold emitted at hxs ⊢
    rw [List.filterMap_cons, List.map_cons,
      show (if PastSend x.1 = true then
          some (⟨x.2, alive x.2⟩ : PingResult) else none) =
        some ⟨x.2, alive x.2⟩ from by rw [hx]; rfl, hxs]

theorem allDone_results {maxT : Nat} {alive : String → Bool} {ips : List String}
    {s : DispState} (hInv : Inv maxT alive ips s) (hdone : AllDone s) :
    s.results.Perm (ips.map (fun ip => (⟨ip, alive ip⟩ : PingResult))) ∧
    s.results.length = ips.length ∧
    (s.results.map PingResult.IP).Perm ips := by
  have h1 : emitted alive s.tasks = s.tasks.map (fun t => ⟨t.2, alive t.2⟩) :=
    emitted_allDone s.tasks hdone
  have h2 : s.tasks.map (fun t => (⟨t.2, alive t.2⟩ : PingResult)) =
      ips.map (fun ip => ⟨ip, alive ip⟩) := by
    rw [← hInv.ipsEq, List.map_map]
    rfl
  have hperm : s.results.Perm (ips.map fun ip => ⟨ip, alive ip⟩) := by
    have := hInv.resPerm
    rw [h1, h2] at this
    exact this
  refine ⟨hperm, ?_, ?_⟩
  · rw [hperm.length_eq, List.length_map]
  · have hm := hperm.map PingResult.IP
    rw [List.map_map,
      show (PingResult.IP ∘ fun ip => (⟨ip, alive ip⟩ : PingResult)) =
        fun ip => ip from rfl] at hm
    simpa using hm

/-! ### Progress: every non-final state can take an effective step -/

theorem stepsLeft_decr {maxT : Nat} (alive : String → Bool) {s : DispState}
    {i : Nat} {pc : TaskPC} {ip : String}
    (hi : s.tasks[i]? = some (pc, ip)) (hpc : pc ≠ TaskPC.done)
    (hen : pc = TaskPC.acquire → s.sem < maxT) :
    stepsLeft (step maxT alive s i) < stepsLeft s := by
  obtain ⟨hlen, hgetE⟩ := List.getElem?_eq_some.mp hi
  have hget : s.tasks.get ⟨i, hlen⟩ = (pc, ip) := hgetE
  cases pc with
  | acquire =>
    rw [step_acquire hi (hen rfl)]
    have hsum := sum_map_set taskSteps s.tasks i (TaskPC.probe, ip) hlen
    rw [hget,
      show taskSteps (TaskPC.acquire, ip) = 5 from rfl,
      show taskSteps (TaskPC.probe, ip) = 4 from rfl] at hsum
    unfold stepsLeft
    dsimp only
    omega
  | probe =>
    rw [step_probe hi]
    have hsum := sum_map_set taskSteps s.tasks i (TaskPC.send, ip) hlen
    rw [hget,
      show taskSteps (TaskPC.probe, ip) = 4 from rfl,
      show taskSteps (TaskPC.send, ip) = 3 from rfl] at hsum
    unfold stepsLeft
    dsimp only
    omega
  | send =>
    rw [step_send hi]
    have hsum := sum_map_set taskSteps s.tasks i (TaskPC.release, ip) hlen
    rw [hget,
      show taskSteps (TaskPC.send, ip) = 3 from rfl,
      show taskSteps (TaskPC.release, ip) = 2 from rfl] at hsum
    unfold stepsLeft
    dsimp only
    omega
  | release =>
    rw [step_release hi]
    have hsum := sum_map_set taskSteps s.tasks i (TaskPC.signal, ip) hlen
    rw [hget,
      show taskSteps (TaskPC.release, ip) = 2 from rfl,
      show taskSteps (TaskPC.signal, ip) = 1 from rfl] at hsum
    unfold stepsLeft
    dsimp only
    omega
  | signal =>
    rw [step_signal hi]
    have hsum := sum_map_set taskSteps s.tasks i (TaskPC.done, ip) hlen
    rw [hget,
      show taskSteps (TaskPC.signal, ip) = 1 from rfl,
      show taskSteps (TaskPC.done, ip) = 0 from rfl] at hsum
    unfold stepsLeft
    dsimp only
    omega
  | done => exact absurd rfl hpc

theorem exists_allDone {maxT : Nat} {alive : String → Bool} {ips : List String}
    (hT : 1 ≤ maxT) :
    ∀ (m : Nat) (s : DispState), Inv maxT alive ips s → stepsLeft s ≤ m →
      ∃ sched, AllDone (run maxT alive s sched) := by
  intro m
  induction m with
  | zero =>
    intro s _ hm
    refine ⟨[], ?_⟩
    intro t ht
    have h0 : taskSteps t = 0 :=
      List.sum_eq_zero_iff.mp (Nat.le_zero.mp hm) (taskSteps t)
        (List.mem_map_of_mem _ ht)
    unfold taskSteps at h0
    cases hpc : t.1 with
    | acquire => rw [hpc] at h0; simp [remSteps] at h0
    | probe => rw [hpc] at h0; simp [remSteps] at h0
    | send => rw [hpc] at h0; simp [remSteps] at h0
    | release => rw [hpc] at h0; simp [remSteps] at h0
    | signal => rw [hpc] at h0; simp [remSteps] at h0
    | done => rfl
  | succ m ih =>
    intro s hInv hm
    by_cases hall : AllDone s
    · exact ⟨[], hall⟩
    · have hex : ∃ (k : Nat) (pcE : TaskPC) (ipE : String),
          s.tasks[k]? = some (pcE, ipE) ∧
          pcE ≠ TaskPC.done ∧ (pcE = TaskPC.acquire → s.sem < maxT) := by
        unfold AllDone at hall
        push_neg at hall
        obtain ⟨t, htmem, htne⟩ := hall
        obtain ⟨j, hj, hjE⟩ := List.getElem_of_mem htmem
        obtain ⟨pc, ip⟩ := t
        have hget? : s.tasks[j]? = some (pc, ip) :=
          List.getElem?_eq_some.mpr ⟨hj, hjE⟩
        cases pc with
        | acquire =>
          by_cases hsem : s.sem < maxT
          · exact ⟨j, _, _, hget?, by simp, fun _ => hsem⟩
          · have hpos : 0 < s.tasks.countP slotHolder := by
              have := hInv.semEq
              omega
            obtain ⟨t2, ht2mem, ht2p⟩ := List.countP_pos_iff.mp hpos
            obtain ⟨k, hk, hkE⟩ := List.getElem_of_mem ht2mem
            obtain ⟨pc2, ip2⟩ := t2
            refine ⟨k, pc2, ip2, List.getElem?_eq_some.mpr ⟨hk, hkE⟩, ?_, ?_⟩
            · intro hE
              rw [hE] at ht2p
              simp [slotHolder, SlotHeld] at ht2p
            · intro hE
              rw [hE] at ht2p
              simp [slotHolder, SlotHeld] at ht2p
        | probe => exact ⟨j, _, _, hget?, by simp, by intro h; cases h⟩
        | send => exact ⟨j, _, _, hget?, by simp, by intro h; cases h⟩
        | release => exact ⟨j, _, _, hget?, by simp, by intro h; cases h⟩
        | signal => exact ⟨j, _, _, hget?, by simp, by intro h; cases h⟩
        | done => exact absurd rfl htne
      obtain ⟨k, pcE, ipE, hk?, hkne, hken⟩ := hex
      have hdec := stepsLeft_decr alive hk? hkne hken
      obtain ⟨sched, hsched⟩ := ih (step maxT alive s k) (step_inv hInv k) (by omega)
      exact ⟨k :: sched, hsched⟩

/-- **C3**: for every finite input address list of length `N` and every
concurrency ceiling of at least 1, the dispatcher can only return in a
state where exactly `N` outcomes have been collected, with each input
address appearing in exactly one outcome (as a multiset, counting
duplicates); and such a returning state is reachable.
`pingAllWithConcurrency` returns exactly when every per-address goroutine
has finished (`wg.Wait` closes the results channel, the collection loop
drains it), i.e. in an `AllDone` state. -/
theorem dispatcher_complete (ips : List String) (alive : String → Bool)
    (maxT : Nat) (hT : 1 ≤ maxT) :
    (∀ sched : List Nat,
      AllDone (run maxT alive (initState ips) sched) →
        (run maxT alive (initState ips) sched).results.length = ips.length ∧
        ((run maxT alive (initState ips) sched).results.map PingResult.IP).Perm
          ips ∧
        (run maxT alive (initState ips) sched).results.Perm
          (ips.map (fun ip => ⟨ip, alive ip⟩))) ∧
    (∃ sched : List Nat, AllDone (run maxT alive (initState ips) sched)) := by
  constructor
  · intro sched hdone
    have hInv := run_inv sched (init_inv maxT alive ips)
    obtain ⟨h1, h2, h3⟩ := allDone_results hInv hdone
    exact ⟨h2, h3, h1⟩
  · exact exists_allDone hT (stepsLeft (initState ips)) (initState ips)
      (init_inv maxT alive ips) le_rfl

/-- Witness for C3: two addresses under ceiling 1. -/
theorem dispatcher_complete_witness :
    (∀ sched : List Nat,
      AllDone (run 1 (fun _ => true) (initState ["10.0.0.1", "10.0.0.2"]) sched) →
        (run 1 (fun _ => true)
          (initState ["10.0.0.1", "10.0.0.2"]) sched).results.length =
            (["10.0.0.1", "10.0.0.2"] : List String).length ∧
        ((run 1 (fun _ => true)
          (initState ["10.0.0.1", "10.0.0.2"]) sched).results.map
            PingResult.IP).Perm ["10.0.0.1", "10.0.0.2"] ∧
        (run 1 (fun _ => true)
          (initState ["10.0.0.1", "10.0.0.2"]) sched).results.Perm
          ((["10.0.0.1", "10.0.0.2"] : List String).map
            (fun ip => ⟨ip, true⟩))) ∧
    (∃ sched : List Nat,
      AllDone (run 1 (fun _ => true) (initState ["10.0.0.1", "10.0.0.2"]) sched)) :=
  dispatcher_complete ["10.0.0.1", "10.0.0.2"] (fun _ => true) 1 (by norm_num)

/-- **C7**: at every reachable state of a chunk scan, the number of tasks
currently executing the probe is at most the ceiling `maxT` (they all hold
semaphore slots, of which at most `maxT` exist); and a task whose
acquisition finds the semaphore full is left completely unchanged — it
blocks waiting and is not dropped. -/
theorem dispatcher_ceiling (ips : List String) (alive : String → Bool)
    (maxT : Nat) :
    (∀ sched : List Nat,
      (run maxT alive (initState ips) sched).tasks.countP
        (fun t => decide (t.1 = TaskPC.probe)) ≤ maxT) ∧
    (∀ sched : List Nat, ∀ i : Nat, ∀ ip : String,
      (run maxT alive (initState ips) sched).tasks[i]? =
          some (TaskPC.acquire, ip) →
        maxT ≤ (run maxT alive (initState ips) sched).sem →
        step maxT alive (run maxT alive (initState ips) sched) i =
          run maxT alive (initState ips) sched) := by
  constructor
  · intro sched
    have hInv := run_inv sched (init_inv maxT alive ips)
    have hmono : (run maxT alive (initState ips) sched).tasks.countP
        (fun t => decide (t.1 = TaskPC.probe)) ≤
        (run maxT alive (initState ips) sched).tasks.countP slotHolder := by
      apply List.countP_mono_left
      intro t _ hp
      simp only [decide_eq_true_eq] at hp
      unfold slotHolder
      rw [hp]
      rfl
    have h1 := hInv.semEq
    have h2 := hInv.semLe
    omega
  · intro sched i ip hi hsem
    exact step_acquire_blocked hi (by omega)

/-- Witness for C7: with ceiling 1 and two addresses, after the first task
acquires the slot, the second task's acquisition attempt leaves the state
unchanged. -/
theorem dispatcher_ceiling_witness :
    (run 1 (fun _ => false) (initState ["10.0.0.1", "10.0.0.2"]) [0]).tasks.countP
        (fun t => decide (t.1 = TaskPC.probe)) ≤ 1 ∧
    step 1 (fun _ => false)
        (run 1 (fun _ => false) (initState ["10.0.0.1", "10.0.0.2"]) [0]) 1 =
      run 1 (fun _ => false) (initState ["10.0.0.1", "10.0.0.2"]) [0] :=
  ⟨(dispatcher_ceiling ["10.0.0.1", "10.0.0.2"] (fun _ => false) 1).1 [0],
    (dispatcher_ceiling ["10.0.0.1", "10.0.0.2"] (fun _ => false) 1).2 [0] 1
      "10.0.0.2" (by decide) (by decide)⟩

/-- **C8** (amended: the progress signal comes *after* the slot release,
not before): every task emits exactly one progress signal per probe
completion — in every reachable state the progress count equals the number
of finished tasks, and a completed scan has emitted exactly `N` signals —
and in the task's program order the release step (which frees the slot and
leaves the progress count unchanged) precedes the signal step (which
increments the progress count and leaves the semaphore unchanged). -/
theorem dispatcher_signal (ips : List String) (alive : String → Bool)
    (maxT : Nat) :
    (∀ sched : List Nat,
      (run maxT alive (initState ips) sched).progress =
        (run maxT alive (initState ips) sched).tasks.countP doneTask ∧
      (run maxT alive (initState ips) sched).sem =
        (run maxT alive (initState ips) sched).tasks.countP slotHolder ∧
      (AllDone (run maxT alive (initState ips) sched) →
        (run maxT alive (initState ips) sched).progress = ips.length)) ∧
    (∀ s : DispState, ∀ i : Nat, ∀ ip : String,
      s.tasks[i]? = some (TaskPC.release, ip) →
        (step maxT alive s i).progress = s.progress ∧
        (step maxT alive s i).sem = s.sem - 1 ∧
        (step maxT alive s i).tasks = s.tasks.set i (TaskPC.signal, ip)) ∧
    (∀ s : DispState, ∀ i : Nat, ∀ ip : String,
      s.tasks[i]? = some (TaskPC.signal, ip) →
        (step maxT alive s i).progress = s.progress + 1 ∧
        (step maxT alive s i).sem = s.sem ∧
        (step maxT alive s i).tasks = s.tasks.set i (TaskPC.done, ip)) := by
  refine ⟨?_, ?_, ?_⟩
  · intro sched
    have hInv := run_inv sched (init_inv maxT alive ips)
    refine ⟨hInv.progEq, hInv.semEq, ?_⟩
    intro hdone
    rw [hInv.progEq]
    have hall : (run maxT alive (initState ips) sched).tasks.countP doneTask =
        (run maxT alive (initState ips) sched).tasks.length := by
      rw [List.countP_eq_length]
      intro t ht
      unfold doneTask
      rw [hdone t ht]
      rfl
    have hlen : (run maxT alive (initState ips) sched).tasks.length =
        ips.length := by
      have := congrArg List.length hInv.ipsEq
      simpa using this
    rw [hall, hlen]
  · intro s i ip hi
    rw [step_release hi]
    exact ⟨rfl, rfl, rfl⟩
  · intro s i ip hi
    rw [step_signal hi]
    exact ⟨rfl, rfl, rfl⟩

/-- Witness for C8: one address under ceiling 1, run to completion, plus
the concrete release and signal steps of that run. -/
theorem dispatcher_signal_witness :
    (run 1 (fun _ => false) (initState ["10.0.0.7"]) [0, 0, 0, 0, 0]).progress =
      (["10.0.0.7"] : List String).length ∧
    (step 1 (fun _ => false)
        (run 1 (fun _ => false) (initState ["10.0.0.7"]) [0, 0, 0]) 0).progress =
      (run 1 (fun _ => false) (initState ["10.0.0.7"]) [0, 0, 0]).progress ∧
    (step 1 (fun _ => false)
        (run 1 (fun _ => false) (initState ["10.0.0.7"]) [0, 0, 0, 0]) 0).progress =
      (run 1 (fun _ => false) (initState ["10.0.0.7"]) [0, 0, 0, 0]).progress + 1 :=
  ⟨((dispatcher_signal ["10.0.0.7"] (fun _ => false) 1).1 [0, 0, 0, 0, 0]).2.2
      (by decide),
    (((dispatcher_signal ["10.0.0.7"] (fun _ => false) 1).2.1
      (run 1 (fun _ => false) (initState ["10.0.0.7"]) [0, 0, 0]) 0 "10.0.0.7")
      (by decide)).1,
    (((dispatcher_signal ["10.0.0.7"] (fun _ => false) 1).2.2
      (run 1 (fun _ => false) (initState ["10.0.0.7"]) [0, 0, 0, 0]) 0 "10.0.0.7")
      (by decide)).1⟩

/-- Counterexample for C8 as stated: in the run of one task under ceiling 1,
after its fourth step (acquire, probe, send, release) the task has already
released its admission slot (the semaphore went from 1 back to 0, and the
probe result is already in the results channel) while no progress signal
has been emitted yet (`progress = 0`, the task's next instruction is the
signal send) — so the signal is emitted after the release, not before it. -/
theorem dispatcher_signal_cex :
    (run 1 (fun _ => false) (initState ["10.0.0.7"]) [0, 0, 0]).sem = 1 ∧
    (run 1 (fun _ => false) (initState ["10.0.0.7"]) [0, 0, 0, 0]).sem = 0 ∧
    (run 1 (fun _ => false) (initState ["10.0.0.7"]) [0, 0, 0, 0]).results =
      [⟨"10.0.0.7", false⟩] ∧
    (run 1 (fun _ => false) (initState ["10.0.0.7"]) [0, 0, 0, 0]).progress = 0 ∧
    (run 1 (fun _ => false) (initState ["10.0.0.7"]) [0, 0, 0, 0]).tasks =
      [(TaskPC.signal, "10.0.0.7")] := by
  refine ⟨rfl, rfl, rfl, rfl, rfl⟩

/-! ### Result reporter -/

theorem sorted_perm_unique {l1 l2 : List PingResult} (hp : l1.Perm l2)
    (h1 : l1.Pairwise (fun x y => sortKey x ≤ sortKey y))
    (h2 : l2.Pairwise (fun x y => sortKey x ≤ sortKey y))
    (hnd : (l1.map sortKey).Nodup) : l1 = l2 := by
  have hnd2 : (l2.map sortKey).Nodup := (hp.map sortKey).nodup hnd
  have hne1 : l1.Pairwise (fun x y => sortKey x ≠ sortKey y) :=
    List.pairwise_map.mp hnd
  have hne2 : l2.Pairwise (fun x y => sortKey x ≠ sortKey y) :=
    List.pairwise_map.mp hnd2
  have hs1 : l1.Pairwise (fun x y => sortKey x < sortKey y) :=
    (h1.and hne1).imp (fun h => lt_of_le_of_ne h.1 h.2)
  have hs2 : l2.Pairwise (fun x y => sortKey x < sortKey y) :=
    (h2.and hne2).imp (fun h => lt_of_le_of_ne h.1 h.2)
  haveI : IsAntisymm PingResult (fun x y => sortKey x < sortKey y) :=
    ⟨fun _ _ hxy hyx => (Nat.lt_asymm hxy hyx).elim⟩
  exact List.eq_of_perm_of_sorted hp hs1 hs2

/-- **C6** (amended: the ordering key is the numeric last octet, but the
sort is `sort.Slice`, which guarantees no stability): the reporter's
comparator key is the numeric value of the last dotted-decimal octet —
`10.0.0.15` keys as the number 15, after `10.0.0.3`'s 3 despite the lexical
string order — and on the spec's example input the keys are distinct, so
every output permitted by the sort contract is exactly
`10.0.0.2, 10.0.0.3, 10.0.0.15`. -/
theorem reporter_sort (a b c : Bool) (output : List PingResult)
    (h : SortSliceSpec
      [⟨"10.0.0.2", a⟩, ⟨"10.0.0.15", b⟩, ⟨"10.0.0.3", c⟩] output) :
    sortKey ⟨"10.0.0.2", a⟩ = 2 ∧ sortKey ⟨"10.0.0.15", b⟩ = 15 ∧
    sortKey ⟨"10.0.0.3", c⟩ = 3 ∧
    output = [⟨"10.0.0.2", a⟩, ⟨"10.0.0.3", c⟩, ⟨"10.0.0.15", b⟩] := by
  have k1 : sortKey ⟨"10.0.0.2", a⟩ = 2 := rfl
  have k2 : sortKey ⟨"10.0.0.15", b⟩ = 15 := rfl
  have k3 : sortKey ⟨"10.0.0.3", c⟩ = 3 := rfl
  refine ⟨k1, k2, k3, ?_⟩
  have hperm : output.Perm
      [⟨"10.0.0.2", a⟩, ⟨"10.0.0.3", c⟩, ⟨"10.0.0.15", b⟩] :=
    h.1.trans (((List.Perm.swap (⟨"10.0.0.15", b⟩ : PingResult)
      (⟨"10.0.0.3", c⟩ : PingResult) []).cons
        (⟨"10.0.0.2", a⟩ : PingResult)).symm)
  have hsorted2 : ([⟨"10.0.0.2", a⟩, ⟨"10.0.0.3", c⟩,
      (⟨"10.0.0.15", b⟩ : PingResult)]).Pairwise
      (fun x y => sortKey x ≤ sortKey y) := by
    norm_num [List.pairwise_cons, k1, k2, k3]
  have hnd : (output.map sortKey).Nodup := by
    refine ((h.1.map sortKey).symm).nodup ?_
    rw [show List.map sortKey ([⟨"10.0.0.2", a⟩, ⟨"10.0.0.15", b⟩,
      ⟨"10.0.0.3", c⟩] : List PingResult) = [2, 15, 3] from by
        rw [List.map_cons, List.map_cons, List.map_cons, List.map_nil,
          k1, k2, k3]]
    decide
  exact sorted_perm_unique hperm h.2 hsorted2 hnd

/-- Witness for C6: the sorted output itself satisfies the sort contract. -/
theorem reporter_sort_witness :
    sortKey ⟨"10.0.0.2", true⟩ = 2 ∧ sortKey ⟨"10.0.0.15", false⟩ = 15 ∧
    sortKey ⟨"10.0.0.3", true⟩ = 3 ∧
    ([⟨"10.0.0.2", true⟩, ⟨"10.0.0.3", true⟩,
      (⟨"10.0.0.15", false⟩ : PingResult)]) =
      [⟨"10.0.0.2", true⟩, ⟨"10.0.0.3", true⟩, ⟨"10.0.0.15", false⟩] :=
  reporter_sort true false true
    [⟨"10.0.0.2", true⟩, ⟨"10.0.0.3", true⟩, ⟨"10.0.0.15", false⟩]
    (by refine ⟨?_, ?_⟩ <;> decide)

/-- Counterexample for C6 as stated: the claim promises a *stable* sort,
but the source uses `sort.Slice`, whose contract guarantees only a
permutation that is non-decreasing in the comparator — Go documents it as
not stable.  For two results with the same last octet (`10.0.0.5` and
`10.0.1.5`, both keyed 5), the reversed output also satisfies everything
the code's sort guarantees, so equal-key outcomes are not guaranteed to
retain their input order. -/
theorem reporter_sort_stability_cex :
    SortSliceSpec [⟨"10.0.0.5", true⟩, ⟨"10.0.1.5", false⟩]
      [⟨"10.0.1.5", false⟩, ⟨"10.0.0.5", true⟩] ∧
    sortKey ⟨"10.0.0.5", true⟩ = sortKey ⟨"10.0.1.5", false⟩ ∧
    ([⟨"10.0.1.5", false⟩, (⟨"10.0.0.5", true⟩ : PingResult)]) ≠
      [⟨"10.0.0.5", true⟩, ⟨"10.0.1.5", false⟩] := by
  refine ⟨⟨?_, ?_⟩, rfl, ?_⟩
  · exact List.Perm.swap _ _ _
  · decide
  · decide

/-! ### Probe port (`pingIP`) -/

/-- **C9**: `pingIP` is a total function into `PingResult` (the Go function
returns no error value); every failure — `ping.NewPinger` construction
failure, `Run` transport failure, or zero replies within the timeout —
yields `PingResult{IP: ip, Alive: false}`, and the outcome always carries
the probed address. -/
theorem pingIP_never_errors (ip : String) (env : ProbeEnv) :
    (pingIP ip env).IP = ip ∧
    ((env.newPingerErr = true ∨ env.runErr = true ∨ env.packetsRecv = 0) →
      pingIP ip env = ⟨ip, false⟩) ∧
    (env.newPingerErr = false → env.runErr = false →
      pingIP ip env = ⟨ip, decide (0 < env.packetsRecv)⟩) := by
  unfold pingIP
  cases h1 : env.newPingerErr <;> cases h2 : env.runErr <;> simp [h1, h2]

/-- Witness for C9: a probe whose pinger construction fails, and a probe
that times out with zero replies. -/
theorem pingIP_never_errors_witness :
    (pingIP "10.0.0.9" ⟨true, false, 0⟩).IP = "10.0.0.9" ∧
    pingIP "10.0.0.9" ⟨true, false, 0⟩ = ⟨"10.0.0.9", false⟩ ∧
    pingIP "10.0.0.8" ⟨false, false, 0⟩ = ⟨"10.0.0.8", false⟩ :=
  ⟨(pingIP_never_errors "10.0.0.9" ⟨true, false, 0⟩).1,
    (pingIP_never_errors "10.0.0.9" ⟨true, false, 0⟩).2.1 (Or.inl rfl),
    (pingIP_never_errors "10.0.0.8" ⟨false, false, 0⟩).2.1
      (Or.inr (Or.inr rfl))⟩

/-! ### Progress monitor (`showProgress`) -/

/-- **C10**: the divisors used by `showProgress`'s estimated-remaining-time
computation are exactly `1, 2, 3, …` — the local completed-count is
incremented before the estimate is computed, so every divisor is at least 1
and the division never divides by zero. -/
theorem showProgress_divisors (evs : List ProgEvent) :
    showProgressDivs 0 evs = List.range' 1 (ticksTaken evs) ∧
    (∀ d, d ∈ showProgressDivs 0 evs → 1 ≤ d) := by
  have gen : ∀ (l : List ProgEvent) (count : Nat),
      showProgressDivs count l = List.range' (count + 1) (ticksTaken l) := by
    intro l
    induction l with
    | nil => intro count; rfl
    | cons e rest ih =>
      intro count
      cases e with
      | tick =>
        rw [show ticksTaken (ProgEvent.tick :: rest) = ticksTaken rest + 1
          from rfl, List.range'_succ]
        rw [show showProgressDivs count (ProgEvent.tick :: rest) =
          (count + 1) :: showProgressDivs (count + 1) rest from rfl, ih (count + 1)]
      | closed => rfl
      | finished => rfl
  refine ⟨gen evs 0, ?_⟩
  intro d hd
  rw [gen evs 0] at hd
  have := List.mem_range'_1.mp hd
  omega

/-- Witness for C10: two progress signals then the finished signal use
divisors 1 and 2. -/
theorem showProgress_divisors_witness :
    showProgressDivs 0 [ProgEvent.tick, ProgEvent.tick, ProgEvent.finished] =
      List.range' 1 2 ∧ 1 ≤ 1 :=
  ⟨(showProgress_divisors
      [ProgEvent.tick, ProgEvent.tick, ProgEvent.finished]).1,
    (showProgress_divisors
      [ProgEvent.tick, ProgEvent.tick, ProgEvent.finished]).2 1 (by decide)⟩

end GoPing
